import Mathlib

/-!
Shallow embedding of the plugify plugin system (files `src/unnamed/part_001`,
`src/unnamed/part_002`): a registry of named plugins with priority-ordered
hook dispatch, a hook-name cache, and four dispatch strategies.

Modelling conventions:
* JavaScript primitive values are `JSVal`; property values (which may be
  callables, primitives or plain objects) are `HookVal`.
* A hook invocation has an `Outcome`: it returns a plain value, returns a
  Promise (with a settlement delay and a resolved/rejected settlement), or
  throws synchronously.
* Object identity of the arrays handed out by `getPluginsWithHook` is
  modelled by an allocation counter `nextId` in the system state: every
  freshly created array gets a fresh id, and reference equality is id
  equality.
* Exceptions that escape to the caller are modelled with `Except`;
  `console.warn` / `console.error` calls and hook invocations are recorded
  in an `Event` trace.
* Prototype-inherited object properties (e.g. `toString`) are not modelled:
  property lookup sees own properties only, and hook names are assumed not
  to collide with `Object.prototype` members.
-/

set_option maxHeartbeats 1000000

namespace Plugify

/-- A JavaScript primitive value (the values hooks return and receive). -/
inductive JSVal where
  | null
  | undefined
  | bool (b : Bool)
  | num (n : Int)
  | str (s : String)
deriving DecidableEq, Repr

/-- The outcome of invoking a hook function with some arguments: return a
plain value, return a Promise (settling after `delay` ticks, resolving or
rejecting), or throw synchronously. -/
inductive Outcome where
  | ret (v : JSVal)
  | retPromise (delay : Nat) (settle : Except JSVal JSVal)
  | throws (e : JSVal)

/-- A JavaScript property value: a callable (with its invocation behaviour),
a primitive, or a plain object (a string-keyed field list). -/
inductive HookVal where
  | fn (b : List JSVal → Outcome)
  | prim (v : JSVal)
  | objV (fields : List (String × HookVal))

/-- JavaScript truthiness of a primitive. -/
def JSVal.truthy : JSVal → Bool
  | .null => false
  | .undefined => false
  | .bool b => b
  | .num n => n != 0
  | .str s => s != ""

/-- JavaScript truthiness of a property value: functions and objects are
always truthy. -/
def HookVal.truthy : HookVal → Bool
  | .fn _ => true
  | .objV _ => true
  | .prim v => v.truthy

/-- The result of the JavaScript `typeof` operator. -/
def HookVal.typeofStr : HookVal → String
  | .fn _ => "function"
  | .objV _ => "object"
  | .prim .null => "object"
  | .prim .undefined => "undefined"
  | .prim (.bool _) => "boolean"
  | .prim (.num _) => "number"
  | .prim (.str _) => "string"

/-- Whether a property value is callable (`typeof v === 'function'`). -/
def HookVal.isFunction : HookVal → Bool
  | .fn _ => true
  | _ => false

/-- Whether a property value is exactly `null` (the `!== null` check). -/
def HookVal.isNullLit : HookVal → Bool
  | .prim .null => true
  | _ => false

/-- Result normalization: a returned value is present unless it is
`null` or `undefined` (`result !== null && result !== undefined`). -/
def jsPresent : JSVal → Bool
  | .null => false
  | .undefined => false
  | _ => true

/-- A plugin: a name, an optional priority, an optional `hooks` field
(which may hold any value, not only an object), and its remaining direct
properties (its top-level hook implementations, among others). -/
structure Plugin where
  name : String
  priority : Option Int
  hooks : Option HookVal
  attrs : List (String × HookVal)

/-- Lookup among the plugin's extra direct properties; `undefined` if absent. -/
def Plugin.getAttr (p : Plugin) (k : String) : HookVal :=
  match p.attrs.lookup k with
  | some v => v
  | none => .prim .undefined

/-- Property read `plugin[k]`: the built-in fields `name`, `priority` and
`hooks` are own properties like any other; absent properties read as
`undefined`. -/
def Plugin.getProp (p : Plugin) (k : String) : HookVal :=
  if k = "name" then .prim (.str p.name)
  else if k = "priority" then
    match p.priority with
    | some n => .prim (.num n)
    | none => .prim .undefined
  else if k = "hooks" then
    match p.hooks with
    | some hv => hv
    | none => .prim .undefined
  else p.getAttr k

/-- The JavaScript `k in plugin` check on own properties. -/
def Plugin.hasProp (p : Plugin) (k : String) : Bool :=
  k == "name" || (k == "priority" && p.priority.isSome)
    || (k == "hooks" && p.hooks.isSome) || (p.attrs.lookup k).isSome

/-- The value of `plugin.hooks` as a property value (`undefined` when the
field is absent). -/
def Plugin.hooksVal (p : Plugin) : HookVal :=
  match p.hooks with
  | some hv => hv
  | none => .prim .undefined

/-- The JavaScript `k in o` check on a property value: key membership for a
plain object; `false` otherwise (the call sites guard on `typeof o ===
'object'` first, and our function values carry no own properties). -/
def jsIn (k : String) : HookVal → Bool
  | .objV l => (l.lookup k).isSome
  | _ => false

/-- The optional-chained read `plugin.hooks?.[k]`: `undefined` when `hooks`
is absent or `null`/`undefined`, a field lookup when it is an object, and
`undefined` for primitive or function receivers (which carry no such own
property here). -/
def Plugin.hooksIndex (p : Plugin) (k : String) : HookVal :=
  match p.hooks with
  | none => .prim .undefined
  | some (.prim .null) => .prim .undefined
  | some (.prim .undefined) => .prim .undefined
  | some (.prim _) => .prim .undefined
  | some (.fn _) => .prim .undefined
  | some (.objV l) =>
    match l.lookup k with
    | some v => v
    | none => .prim .undefined

/-- `getHookFunction` (part_002 lines 101-106, part_001 lines 86-91):
`plugin[hookName] || plugin.hooks?.[hookName]` — the direct property if it
is truthy, else the entry inside the `hooks` container. -/
def getHookFunction (p : Plugin) (k : String) : HookVal :=
  let direct := p.getProp k
  if direct.truthy then direct else p.hooksIndex k

/-- The filter predicate of `getPluginsWithHook` (part_002 lines 88-95,
part_001 lines 73-80):
`(plugin.hooks && typeof plugin.hooks === 'object' && plugin.hooks !== null
&& hookName in plugin.hooks) || (hookName in plugin && typeof
plugin[hookName] === 'function')`. -/
def pluginPassesFilter (p : Plugin) (k : String) : Bool :=
  (p.hooksVal.truthy && (p.hooksVal.typeofStr == "object")
      && !p.hooksVal.isNullLit && jsIn k p.hooksVal)
    || (p.hasProp k && (p.getProp k).typeofStr == "function")

/-- Modelled from the spec (sections 3, 4.2, 4.3): a hook implementation is
"resolvable" for a plugin when the direct attribute named `k` is callable,
or else the entry under `k` inside the `hooks` container is callable. This
is the predicate the specification says `resolve` filters by; it is compared
against the source's `pluginPassesFilter`. -/
def specHookResolvable (p : Plugin) (k : String) : Bool :=
  (p.getProp k).isFunction ||
    (match p.hooks with
     | some (.objV l) =>
       match l.lookup k with
       | some v => v.isFunction
       | none => false
     | _ => false)

/-- The sort key: `priority || 0` (absent priority — and priority `0`, which
is falsy — both yield `0`). -/
def prio (p : Plugin) : Int := p.priority.getD 0

/-- The comparator order used by `ensureSorted`: `a` may precede `b` when
`(b.priority || 0) - (a.priority || 0) <= 0`, i.e. descending priority. -/
def prioGE (a b : Plugin) : Prop := prio b ≤ prio a

instance : DecidableRel prioGE := fun a b => inferInstanceAs (Decidable (prio b ≤ prio a))

instance : IsTotal Plugin prioGE := ⟨fun a b => le_total (prio b) (prio a)⟩

instance : IsTrans Plugin prioGE := ⟨fun _ _ _ h1 h2 => le_trans h2 h1⟩

/-- The stable descending-priority sort `[...plugins].sort((a, b) =>
(b.priority || 0) - (a.priority || 0))` (JavaScript's sort is stable). -/
def sortPlugins (l : List Plugin) : List Plugin := List.insertionSort prioGE l

/-- The registry state: the plugin list (insertion order), the hook cache
(hook name ↦ cached array: allocation id and contents), the cached sorted
view, the dirty flag, and the allocation counter for array identities. -/
structure SystemState where
  plugins : List Plugin
  hookCache : List (String × Nat × List Plugin)
  sortedPlugins : List Plugin
  isDirty : Bool
  nextId : Nat

/-- The freshly constructed system (`new PluginSystem()`). -/
def emptySystem : SystemState :=
  { plugins := [], hookCache := [], sortedPlugins := [], isDirty := false, nextId := 0 }

/-- A registration input: a plugin, an array of plugins, or a zero-argument
factory. The factory is invoked exactly once during flattening; we record
its one-shot result, `.error e` meaning the factory throws `e`. -/
inductive PluginInput where
  | single (p : Plugin)
  | arr (ps : List Plugin)
  | factory (r : Except JSVal (Plugin ⊕ List Plugin))

/-- `flattenPlugins` (part_001 lines 13-32, part_002 lines 13-32): splice
every input in order into one flat list. A factory is invoked bare — there
is no try/catch here, so a throwing factory propagates. -/
def flattenPlugins : List PluginInput → Except JSVal (List Plugin)
  | [] => .ok []
  | .single p :: rest => (flattenPlugins rest).map (p :: ·)
  | .arr ps :: rest => (flattenPlugins rest).map (ps ++ ·)
  | .factory (.ok (.inl p)) :: rest => (flattenPlugins rest).map (p :: ·)
  | .factory (.ok (.inr ps)) :: rest => (flattenPlugins rest).map (ps ++ ·)
  | .factory (.error e) :: _ => .error e

/-- Trace events: duplicate-registration warnings, hook invocations,
sync/async-misuse warnings and failure errors (tagged with plugin name and
hook name as the console messages are). -/
inductive Event where
  | warnedDup (pname : String)
  | called (pname : String)
  | warnedAsync (pname : String) (hname : String)
  | erred (pname : String) (hname : String)
deriving DecidableEq, Repr

/-- The acceptance loop of `use`: walk the flattened plugins in order,
dropping (with a warning) any whose name is already taken — by the registry
or by a plugin accepted earlier in the same call — and collecting the rest. -/
def acceptLoop (existing : List String) : List Plugin → List Plugin × List Event
  | [] => ([], [])
  | p :: ps =>
    if p.name ∈ existing then
      let (acc, evs) := acceptLoop existing ps
      (acc, .warnedDup p.name :: evs)
    else
      let (acc, evs) := acceptLoop (p.name :: existing) ps
      (p :: acc, evs)

/-- `use` (part_002 lines 34-49, part_001 lines 34-49): flatten the inputs
(a throwing factory propagates to the caller), append the accepted plugins,
then call `invalidateCache()` unconditionally (dirty flag set, hook cache
cleared) and return the registry. -/
def use (s : SystemState) (inputs : List PluginInput) :
    Except JSVal (SystemState × List Event) :=
  match flattenPlugins inputs with
  | .error e => .error e
  | .ok newPlugins =>
    let (accepted, evs) := acceptLoop (s.plugins.map (·.name)) newPlugins
    .ok ({ s with plugins := s.plugins ++ accepted, isDirty := true, hookCache := [] }, evs)

/-- `remove` (part_002 lines 51-60, part_001 lines 97-106): filter out
plugins with the given name; invalidate the sort and the cache only when
the count changed. -/
def remove (s : SystemState) (pname : String) : SystemState :=
  if (s.plugins.filter (fun p => p.name ≠ pname)).length ≠ s.plugins.length then
    { s with plugins := s.plugins.filter (fun p => p.name ≠ pname),
             isDirty := true, hookCache := [] }
  else
    { s with plugins := s.plugins.filter (fun p => p.name ≠ pname) }

/-- `clear` (part_002 lines 236-242, part_001 lines 112-118): empty the
plugin list and the sorted view, reset the dirty flag to clean, clear the
cache. -/
def clear (s : SystemState) : SystemState :=
  { s with plugins := [], sortedPlugins := [], isDirty := false, hookCache := [] }

/-- `ensureSorted` (part_002 lines 66-74, part_001 lines 51-59): when
dirty, recompute the stable descending-priority sorted copy (the source's
special case for an empty list yields `[]`, as the sort does) and clear the
dirty flag. -/
def ensureSorted (s : SystemState) : SystemState :=
  if s.isDirty then
    { s with sortedPlugins := sortPlugins s.plugins, isDirty := false }
  else s

/-- `getPluginsWithHook` (part_002 lines 81-99, part_001 lines 66-84): on a
cache hit return the cached array; otherwise ensure the sorted view is
current, filter it, cache the filtered array, and return it — except that
when it is empty the returned value is `Object.freeze([])`, a freshly
allocated frozen empty array distinct from the cached one. The returned
pair `(id, contents)` is the array object. -/
def getPluginsWithHook (s : SystemState) (h : String) :
    SystemState × Nat × List Plugin :=
  match s.hookCache.lookup h with
  | some entry => (s, entry)
  | none =>
    let s1 := ensureSorted s
    let pluginsWithHook := s1.sortedPlugins.filter (fun p => pluginPassesFilter p h)
    let cacheId := s1.nextId
    let s2 : SystemState :=
      { s1 with
        hookCache := s1.hookCache ++ [(h, cacheId, pluginsWithHook)]
        nextId := cacheId + 1 }
    if pluginsWithHook.length > 0 then (s2, cacheId, pluginsWithHook)
    else ({ s2 with nextId := s2.nextId + 1 }, s2.nextId, [])

/-- The plugin sequence a dispatch strategy iterates over. -/
def resolveContents (s : SystemState) (h : String) : List Plugin :=
  (getPluginsWithHook s h).2.2

/-- The identity (allocation id) of the array `getPluginsWithHook` returns. -/
def resolveId (s : SystemState) (h : String) : Nat :=
  (getPluginsWithHook s h).2.1

/-! ### Dispatch strategies -/

/-- One candidate of the synchronous loop body of `exec`/`execAll`
(part_002 lines 114-136 and 179-202; factored in part_001 as
`SyncPluginSystem.executeHook`, lines 128-156, and
`PluginSystem.executeHookSync`, lines 254-282): skip silently unless the
resolved hook value is callable; call it; a Promise return is warned about
and treated as absent; a throw is logged and treated as absent; otherwise
the value is present unless `null`/`undefined`. -/
def execStep (h : String) (args : List JSVal) (p : Plugin) :
    Option JSVal × List Event :=
  let hookFunction := getHookFunction p h
  match hookFunction with
  | .fn b =>
    match b args with
    | .throws _ => (none, [.called p.name, .erred p.name h])
    | .retPromise _ _ => (none, [.called p.name, .warnedAsync p.name h])
    | .ret v => (if jsPresent v then some v else none, [.called p.name])
  | _ => (none, [])

/-- The loop of `exec` (part_002 lines 114-139): first present result wins
and stops the iteration; absent results continue. -/
def execList (h : String) (args : List JSVal) : List Plugin → Option JSVal × List Event
  | [] => (none, [])
  | p :: ps =>
    let (r, evs) := execStep h args p
    match r with
    | some v => (some v, evs)
    | none =>
      let (r2, evs2) := execList h args ps
      (r2, evs ++ evs2)

/-- `exec` (part_002 lines 108-140, part_001 lines 158-172 and 305-319):
synchronous first-match dispatch over `getPluginsWithHook`. -/
def exec (s : SystemState) (h : String) (args : List JSVal) :
    SystemState × Option JSVal × List Event :=
  ((getPluginsWithHook s h).1, execList h args (getPluginsWithHook s h).2.2)

/-- The loop of `execAll` (part_002 lines 177-204): collect every present
result in invocation order. -/
def execAllList (h : String) (args : List JSVal) : List Plugin → List JSVal × List Event
  | [] => ([], [])
  | p :: ps =>
    let (r, evs) := execStep h args p
    let (rs, evs2) := execAllList h args ps
    (match r with
     | some v => v :: rs
     | none => rs, evs ++ evs2)

/-- `execAll` (part_002 lines 167-205, part_001 lines 174-189 and 321-336):
synchronous all-match dispatch (the source's early return on an empty
candidate list yields `[]`, as the loop does). -/
def execAll (s : SystemState) (h : String) (args : List JSVal) :
    SystemState × List JSVal × List Event :=
  ((getPluginsWithHook s h).1, execAllList h args (getPluginsWithHook s h).2.2)

/-- Awaiting a hook call inside a `try` block: a plain return resolves to
the value, a returned Promise is adopted (its settlement is the result, a
rejection becomes a caught exception), and a synchronous throw is an
exception by the same path. -/
def awaitOutcome : Outcome → Except JSVal JSVal
  | .ret v => .ok v
  | .retPromise _ r => r
  | .throws e => .error e

/-- One candidate of the asynchronous sequential loop (`execAsync`,
part_002 lines 148-161; factored in part_001 as the async `executeHook`,
lines 196-214, and `executeHookAsync`, lines 284-302): skip silently unless
callable; `await hookFunction(...args)` with a catch that logs and yields
absent. -/
def execStepAsync (h : String) (args : List JSVal) (p : Plugin) :
    Option JSVal × List Event :=
  let hookFunction := getHookFunction p h
  match hookFunction with
  | .fn b =>
    match awaitOutcome (b args) with
    | .error _ => (none, [.called p.name, .erred p.name h])
    | .ok v => (if jsPresent v then some v else none, [.called p.name])
  | _ => (none, [])

/-- The loop of `execAsync` (part_002 lines 148-164): candidates are
awaited one at a time; the first present result stops the sequence. -/
def execAsyncList (h : String) (args : List JSVal) : List Plugin → Option JSVal × List Event
  | [] => (none, [])
  | p :: ps =>
    let (r, evs) := execStepAsync h args p
    match r with
    | some v => (some v, evs)
    | none =>
      let (r2, evs2) := execAsyncList h args ps
      (r2, evs ++ evs2)

/-- `execAsync` (part_002 lines 142-165, part_001 lines 216-230 and
339-353): asynchronous first-match dispatch. -/
def execAsync (s : SystemState) (h : String) (args : List JSVal) :
    SystemState × Option JSVal × List Event :=
  ((getPluginsWithHook s h).1, execAsyncList h args (getPluginsWithHook s h).2.2)

/-- The per-candidate promise built by `execAllAsync` (part_002 lines
218-229): for a callable resolved hook,
`Promise.resolve().then(() => hookFunction(...args)).catch(log; null)` — a
plain return settles with the value, a returned Promise is adopted, and
both a synchronous throw and a rejection are caught, logged and settle with
`null`; a non-callable candidate contributes `Promise.resolve(null)`. The
promise is `(delay, settled value)`. -/
def asyncPromise (h : String) (args : List JSVal) (p : Plugin) :
    (Nat × JSVal) × List Event :=
  let hookFunction := getHookFunction p h
  match hookFunction with
  | .fn b =>
    match b args with
    | .ret v => ((0, v), [.called p.name])
    | .retPromise d (.ok v) => ((d, v), [.called p.name])
    | .retPromise d (.error _) => ((d, .null), [.called p.name, .erred p.name h])
    | .throws _ => ((0, .null), [.called p.name, .erred p.name h])
  | _ => ((0, .null), [])

/-- Truthiness of a Promise object: a Promise is an object and hence always
truthy, so the source's `.filter(Boolean)` keeps every element. -/
def promiseTruthy (_pr : Nat × JSVal) : Bool := true

/-- The event-loop model of `Promise.all`: settlements are processed in a
given completion `order` (a permutation of the promise indices); each
settlement writes its value into its own slot; the aggregate resolves with
the slots in index order. -/
def promiseAllSched (ps : List (Nat × JSVal)) (order : List Nat) : List JSVal :=
  let slots := order.foldl
    (fun slots i => slots.set i (some ((ps.getD i (0, JSVal.undefined)).2)))
    (List.replicate ps.length (none : Option JSVal))
  slots.map (fun o => o.getD JSVal.undefined)

/-- A completion order induced by the settlement delays: indices settle in
delay order, ties settling in index order (a stable sort of the indices by
delay). -/
def completionOrder (ps : List (Nat × JSVal)) : List Nat :=
  List.insertionSort (fun i j => (ps.getD i (0, JSVal.undefined)).1 ≤ (ps.getD j (0, JSVal.undefined)).1)
    (List.range ps.length)

/-- `execAllAsync` (part_002 lines 207-234) with an explicit completion
order for the candidate promises: map each candidate to its promise, keep
the truthy ones (all of them), await `Promise.all` under the given
completion order, and filter the settled values that are present. -/
def execAllAsyncWith (order : List Nat) (s : SystemState) (h : String)
    (args : List JSVal) : SystemState × List JSVal × List Event :=
  if (getPluginsWithHook s h).2.2.isEmpty then ((getPluginsWithHook s h).1, [], [])
  else
    ((getPluginsWithHook s h).1,
     (promiseAllSched
        ((((getPluginsWithHook s h).2.2.map (asyncPromise h args)).map (fun pr => pr.1)).filter
          promiseTruthy)
        order).filter jsPresent,
     ((getPluginsWithHook s h).2.2.map (asyncPromise h args)).flatMap (fun pr => pr.2))

/-- `execAllAsync` (part_002 lines 207-234): the concurrent all-match
dispatch, with candidate promises settling in delay order. -/
def execAllAsync (s : SystemState) (h : String) (args : List JSVal) :
    SystemState × List JSVal × List Event :=
  execAllAsyncWith
    (completionOrder
      ((((getPluginsWithHook s h).2.2.map (asyncPromise h args)).map (fun pr => pr.1)).filter
        promiseTruthy))
    s h args

/-- The loop of the sequential `execAllAsync` variant (part_001 lines
355-370): candidates awaited one at a time, present results collected in
order. -/
def execAllAsyncSeqList (h : String) (args : List JSVal) :
    List Plugin → List JSVal × List Event
  | [] => ([], [])
  | p :: ps =>
    let (r, evs) := execStepAsync h args p
    let (rs, evs2) := execAllAsyncSeqList h args ps
    (match r with
     | some v => v :: rs
     | none => rs, evs ++ evs2)

/-- The sequential `execAllAsync` of part_001's combined `PluginSystem`
(lines 355-370). -/
def execAllAsyncSeq (s : SystemState) (h : String) (args : List JSVal) :
    SystemState × List JSVal × List Event :=
  ((getPluginsWithHook s h).1, execAllAsyncSeqList h args (getPluginsWithHook s h).2.2)

/-! ### Sort lemmas -/

/-- Key-equality test used to state stability of the priority sort. -/
def prioIs (k : Int) (p : Plugin) : Bool := prio p == k

theorem sortPlugins_perm (l : List Plugin) : (sortPlugins l).Perm l :=
  List.perm_insertionSort _ l

theorem sortPlugins_sorted (l : List Plugin) : (sortPlugins l).Pairwise prioGE :=
  List.sorted_insertionSort _ l

theorem filter_orderedInsert (k : Int) (a : Plugin) (l : List Plugin) :
    (List.orderedInsert prioGE a l).filter (prioIs k)
      = if prioIs k a then a :: l.filter (prioIs k) else l.filter (prioIs k) := by
  induction l with
  | nil => simp [List.orderedInsert, List.filter_cons]
  | cons b l ih =>
    by_cases hab : prioGE a b
    · rw [List.orderedInsert_of_le _ _ hab, List.filter_cons]
    · have hne : prioIs k a = true → prioIs k b = false := by
        intro hka
        have h1 : prio a = k := by simpa [prioIs] using hka
        have h2 : prio a < prio b := lt_of_not_le (by simpa [prioGE] using hab)
        simp only [prioIs, beq_eq_false_iff_ne, ne_eq]
        omega
      have hstep : List.orderedInsert prioGE a (b :: l) = b :: List.orderedInsert prioGE a l := by
        simp [List.orderedInsert, hab]
      rw [hstep, List.filter_cons, ih, List.filter_cons]
      by_cases ha : prioIs k a = true
      · have hb := hne ha
        simp [ha, hb]
      · have ha' : prioIs k a = false := by simpa using ha
        simp [ha']

/-- Stability: the stable descending sort preserves, for every priority
key, the relative order (indeed the exact subsequence) of equal-priority
plugins. -/
theorem sortPlugins_stable (k : Int) (l : List Plugin) :
    (sortPlugins l).filter (prioIs k) = l.filter (prioIs k) := by
  induction l with
  | nil => rfl
  | cons a l ih =>
    show (List.orderedInsert prioGE a (sortPlugins l)).filter (prioIs k) = _
    rw [filter_orderedInsert]
    by_cases ha : prioIs k a = true <;> simp [List.filter, ha, ih]

/-! ### The registry invariant and reachable states -/

/-- The internal well-formedness of a registry state: plugin names are
pairwise distinct; when the dirty flag is clear, the cached sorted view is
the stable sort of the plugin list; and every cache entry holds exactly the
filtered sorted view for its hook name with an allocation id below the
counter. -/
def Inv (s : SystemState) : Prop :=
  (s.plugins.map Plugin.name).Nodup ∧
  (s.isDirty = false → s.sortedPlugins = sortPlugins s.plugins) ∧
  (∀ e ∈ s.hookCache,
    e.2.2 = (sortPlugins s.plugins).filter (fun p => pluginPassesFilter p e.1) ∧
    e.2.1 < s.nextId)

/-- States reachable from construction through the public operations. -/
inductive Reachable : SystemState → Prop where
  | init : Reachable emptySystem
  | useStep {s s' : SystemState} {inputs : List PluginInput} {evs : List Event} :
      Reachable s → use s inputs = .ok (s', evs) → Reachable s'
  | removeStep {s : SystemState} {n : String} : Reachable s → Reachable (remove s n)
  | clearStep {s : SystemState} : Reachable s → Reachable (clear s)
  | queryStep {s : SystemState} {h : String} :
      Reachable s → Reachable (getPluginsWithHook s h).1

theorem acceptLoop_spec (existing : List String) (ps : List Plugin) :
    ((acceptLoop existing ps).1.map Plugin.name).Nodup ∧
    ∀ p ∈ (acceptLoop existing ps).1, p.name ∉ existing := by
  induction ps generalizing existing with
  | nil => simp [acceptLoop]
  | cons p ps ih =>
    by_cases hp : p.name ∈ existing
    · simpa [acceptLoop, hp] using ih existing
    · obtain ⟨h1, h2⟩ := ih (p.name :: existing)
      refine ⟨?_, ?_⟩
      · simp only [acceptLoop, hp, if_false, List.map_cons, List.nodup_cons]
        exact ⟨fun hmem => by
          obtain ⟨q, hq, hqn⟩ := List.mem_map.mp hmem
          exact h2 q hq (hqn ▸ List.mem_cons_self _ _), h1⟩
      · intro q hq
        simp only [acceptLoop, hp, if_false, List.mem_cons] at hq
        rcases hq with rfl | hq
        · exact hp
        · exact fun hmem => h2 q hq (List.mem_cons_of_mem _ hmem)

theorem acceptLoop_dup_warned (existing : List String) (ps : List Plugin)
    (p : Plugin) (hp : p ∈ ps) (hex : p.name ∈ existing) :
    Event.warnedDup p.name ∈ (acceptLoop existing ps).2 := by
  induction ps generalizing existing with
  | nil => cases hp
  | cons q ps ih =>
    rcases List.mem_cons.mp hp with rfl | hp'
    · simp [acceptLoop, hex]
    · by_cases hq : q.name ∈ existing
      · simpa [acceptLoop, hq] using Or.inr (ih existing hp' hex)
      · simpa [acceptLoop, hq] using ih (q.name :: existing) hp' (List.mem_cons_of_mem _ hex)

theorem acceptLoop_sublist (existing : List String) (ps : List Plugin) :
    (acceptLoop existing ps).1.Sublist ps := by
  induction ps generalizing existing with
  | nil => simp [acceptLoop]
  | cons q ps ih =>
    by_cases hq : q.name ∈ existing
    · simpa [acceptLoop, hq] using (ih existing).cons q
    · simpa [acceptLoop, hq] using (ih (q.name :: existing)).cons₂ q

/-- A flattened plugin whose name is already taken — by the surrounding
`existing` set or by *any earlier plugin of the same batch* — is warned
about. -/
theorem acceptLoop_batch_dup_warned (existing : List String) (l1 : List Plugin)
    (p : Plugin) (l2 : List Plugin)
    (hex : p.name ∈ existing ∨ p.name ∈ l1.map Plugin.name) :
    Event.warnedDup p.name ∈ (acceptLoop existing (l1 ++ p :: l2)).2 := by
  induction l1 generalizing existing with
  | nil =>
    rcases hex with hex | hex
    · simp [acceptLoop, hex]
    · cases hex
  | cons q l1 ih =>
    rw [List.cons_append]
    by_cases hq : q.name ∈ existing
    · have hex2 : p.name ∈ existing ∨ p.name ∈ l1.map Plugin.name := by
        rcases hex with hex | hex
        · exact Or.inl hex
        · rw [List.map_cons] at hex
          rcases List.mem_cons.mp hex with heq | hmem
          · exact Or.inl (heq ▸ hq)
          · exact Or.inr hmem
      simpa [acceptLoop, hq] using Or.inr (ih existing hex2)
    · have hex2 : p.name ∈ q.name :: existing ∨ p.name ∈ l1.map Plugin.name := by
        rcases hex with hex | hex
        · exact Or.inl (List.mem_cons_of_mem _ hex)
        · rw [List.map_cons] at hex
          rcases List.mem_cons.mp hex with heq | hmem
          · exact Or.inl (heq ▸ List.mem_cons_self _ _)
          · exact Or.inr hmem
      simpa [acceptLoop, hq] using ih (q.name :: existing) hex2

/-- The first flattened plugin of a name not already taken is accepted:
within a single register call, the earlier plugin of a duplicated fresh
name is the one that survives. -/
theorem acceptLoop_first_fresh_accepted (existing : List String) (l1 : List Plugin)
    (p : Plugin) (l2 : List Plugin)
    (hfe : p.name ∉ existing) (hfb : p.name ∉ l1.map Plugin.name) :
    p ∈ (acceptLoop existing (l1 ++ p :: l2)).1 := by
  induction l1 generalizing existing with
  | nil => simp [acceptLoop, hfe]
  | cons q l1 ih =>
    rw [List.cons_append]
    have hpq : p.name ≠ q.name := fun hcon => hfb (by simp [hcon])
    have hfb2 : p.name ∉ l1.map Plugin.name := fun hcon => hfb (by simp [hcon])
    by_cases hq : q.name ∈ existing
    · simpa [acceptLoop, hq] using ih existing hfe hfb2
    · have hfe2 : p.name ∉ q.name :: existing := by
        intro hcon
        rcases List.mem_cons.mp hcon with heq | hmem
        · exact hpq heq
        · exact hfe hmem
      simpa [acceptLoop, hq] using Or.inr (ih (q.name :: existing) hfe2 hfb2)

theorem use_ok_shape {s : SystemState} {inputs : List PluginInput}
    {s' : SystemState} {evs : List Event}
    (h : use s inputs = .ok (s', evs)) :
    ∃ ps, flattenPlugins inputs = .ok ps ∧
      s' = { s with
              plugins := s.plugins ++ (acceptLoop (s.plugins.map (·.name)) ps).1,
              isDirty := true, hookCache := [] } ∧
      evs = (acceptLoop (s.plugins.map (·.name)) ps).2 := by
  unfold use at h
  cases hf : flattenPlugins inputs with
  | error e => rw [hf] at h; cases h
  | ok ps =>
    rw [hf] at h
    simp only [Except.ok.injEq, Prod.mk.injEq] at h
    exact ⟨ps, rfl, h.1.symm, h.2.symm⟩

theorem inv_empty : Inv emptySystem := by
  refine ⟨List.nodup_nil, fun _ => rfl, fun e he => ?_⟩
  simp [emptySystem] at he

theorem inv_use {s s' : SystemState} {inputs : List PluginInput} {evs : List Event}
    (hs : Inv s) (h : use s inputs = .ok (s', evs)) : Inv s' := by
  obtain ⟨ps, _, rfl, _⟩ := use_ok_shape h
  obtain ⟨hnd, _, _⟩ := hs
  obtain ⟨hnd2, hdisj⟩ := acceptLoop_spec (s.plugins.map (·.name)) ps
  refine ⟨?_, by simp, by simp⟩
  rw [List.map_append]
  exact hnd.append hnd2 (fun a ha hb => by
    obtain ⟨q, hq, rfl⟩ := List.mem_map.mp hb
    exact hdisj q hq ha)

theorem inv_remove {s : SystemState} (hs : Inv s) (n : String) : Inv (remove s n) := by
  obtain ⟨hnd, hsorted, hcache⟩ := hs
  unfold remove
  split_ifs with hlen
  · refine ⟨hnd.sublist ((List.filter_sublist _).map Plugin.name), ?_, ?_⟩
    · intro hh; simp at hh
    · intro e he; simp at he
  · have heq : s.plugins.filter (fun p => p.name ≠ n) = s.plugins :=
      (List.filter_sublist _).eq_of_length (by omega)
    simp only [heq]
    exact ⟨hnd, hsorted, hcache⟩

theorem inv_clear {s : SystemState} (_hs : Inv s) : Inv (clear s) := by
  refine ⟨List.nodup_nil, fun _ => rfl, fun e he => ?_⟩
  simp [clear] at he

theorem ensureSorted_eq {s : SystemState} (hs : Inv s) :
    ensureSorted s = { s with sortedPlugins := sortPlugins s.plugins, isDirty := false } := by
  obtain ⟨pl, hc, sp, d, ni⟩ := s
  unfold ensureSorted
  cases d with
  | true => rfl
  | false =>
    have hsp : sp = sortPlugins pl := hs.2.1 rfl
    simp [hsp]

theorem getPluginsWithHook_hit {s : SystemState} {h : String} {entry : Nat × List Plugin}
    (hc : s.hookCache.lookup h = some entry) :
    getPluginsWithHook s h = (s, entry) := by
  unfold getPluginsWithHook
  rw [hc]

theorem getPluginsWithHook_miss {s : SystemState} (hs : Inv s) {h : String}
    (hc : s.hookCache.lookup h = none) :
    getPluginsWithHook s h =
      (if ((sortPlugins s.plugins).filter (fun p => pluginPassesFilter p h)).length > 0 then
        ({ s with
            hookCache := s.hookCache
              ++ [(h, s.nextId, (sortPlugins s.plugins).filter (fun p => pluginPassesFilter p h))],
            sortedPlugins := sortPlugins s.plugins, isDirty := false, nextId := s.nextId + 1 },
         s.nextId, (sortPlugins s.plugins).filter (fun p => pluginPassesFilter p h))
      else
        ({ s with
            hookCache := s.hookCache
              ++ [(h, s.nextId, (sortPlugins s.plugins).filter (fun p => pluginPassesFilter p h))],
            sortedPlugins := sortPlugins s.plugins, isDirty := false, nextId := s.nextId + 2 },
         s.nextId + 1, [])) := by
  unfold getPluginsWithHook
  rw [hc, ensureSorted_eq hs]

theorem inv_query {s : SystemState} (hs : Inv s) (h : String) :
    Inv (getPluginsWithHook s h).1 := by
  cases hc : s.hookCache.lookup h with
  | some entry => rw [getPluginsWithHook_hit hc]; exact hs
  | none =>
    rw [getPluginsWithHook_miss hs hc]
    obtain ⟨hnd, _, hcache⟩ := hs
    split_ifs with hlen
    · refine ⟨hnd, fun _ => rfl, fun e he => ?_⟩
      dsimp only at he ⊢
      simp only [List.mem_append, List.mem_singleton] at he
      rcases he with he | rfl
      · obtain ⟨h1, h2⟩ := hcache e he
        exact ⟨h1, by omega⟩
      · exact ⟨rfl, by dsimp only; omega⟩
    · refine ⟨hnd, fun _ => rfl, fun e he => ?_⟩
      dsimp only at he ⊢
      simp only [List.mem_append, List.mem_singleton] at he
      rcases he with he | rfl
      · obtain ⟨h1, h2⟩ := hcache e he
        exact ⟨h1, by omega⟩
      · exact ⟨rfl, by dsimp only; omega⟩

theorem reachable_inv {s : SystemState} (h : Reachable s) : Inv s := by
  induction h with
  | init => exact inv_empty
  | useStep _ hstep ih => exact inv_use ih hstep
  | removeStep _ ih => exact inv_remove ih _
  | clearStep _ ih => exact inv_clear ih
  | queryStep _ ih => exact inv_query ih _

/-! ### Cache behaviour lemmas -/

theorem lookup_mem {β : Type _} {l : List (String × β)} {k : String} {v : β}
    (h : l.lookup k = some v) : (k, v) ∈ l := by
  induction l with
  | nil => cases h
  | cons e l ih =>
    obtain ⟨k1, v1⟩ := e
    rw [List.lookup_cons] at h
    cases hbe : (k == k1) with
    | false =>
      simp only [hbe] at h
      exact List.mem_cons_of_mem _ (ih h)
    | true =>
      simp only [hbe] at h
      injection h with hv
      subst hv
      have hk : k = k1 := eq_of_beq hbe
      subst hk
      exact List.mem_cons_self _ _

theorem lookup_append_of_none {β : Type _} {l1 : List (String × β)} (l2 : List (String × β))
    {k : String} (h : l1.lookup k = none) : (l1 ++ l2).lookup k = l2.lookup k := by
  induction l1 with
  | nil => rfl
  | cons e l1 ih =>
    obtain ⟨k1, v1⟩ := e
    rw [List.lookup_cons] at h
    rw [List.cons_append, List.lookup_cons]
    cases hbe : (k == k1) with
    | false =>
      simp only [hbe] at h ⊢
      exact ih h
    | true =>
      simp only [hbe] at h
      exact Option.noConfusion h

/-- The candidate sequence equals the hook filter over the stable sorted
view, in every well-formed state, whether served from the cache or freshly
computed. -/
theorem resolveContents_eq {s : SystemState} (hs : Inv s) (h : String) :
    resolveContents s h = (sortPlugins s.plugins).filter (fun p => pluginPassesFilter p h) := by
  unfold resolveContents
  cases hc : s.hookCache.lookup h with
  | some entry =>
    rw [getPluginsWithHook_hit hc]
    exact (hs.2.2 _ (lookup_mem hc)).1
  | none =>
    rw [getPluginsWithHook_miss hs hc]
    split_ifs with hlen
    · rfl
    · exact (List.length_eq_zero.mp (by omega)).symm

/-- After any call, the hook name is cached, with the cached array holding
the id allocated for the filtered list (on a miss) or the pre-existing
entry (on a hit). -/
theorem post_lookup {s : SystemState} (hs : Inv s) (h : String) :
    ∃ e, ((getPluginsWithHook s h).1).hookCache.lookup h = some e ∧
      ((getPluginsWithHook s h).1).hookCache.lookup h ≠ none := by
  cases hc : s.hookCache.lookup h with
  | some entry =>
    rw [getPluginsWithHook_hit hc]
    exact ⟨entry, hc, by simp [hc]⟩
  | none =>
    rw [getPluginsWithHook_miss hs hc]
    split_ifs with hlen
    · refine ⟨(s.nextId, (sortPlugins s.plugins).filter (fun p => pluginPassesFilter p h)),
        ?_, ?_⟩ <;>
        simp [lookup_append_of_none _ hc]
    · refine ⟨(s.nextId, (sortPlugins s.plugins).filter (fun p => pluginPassesFilter p h)),
        ?_, ?_⟩ <;>
        simp [lookup_append_of_none _ hc]

theorem length_filter_lt_of_mem {α : Type _} {p : α → Bool} {l : List α} {x : α}
    (hx : x ∈ l) (hpx : p x = false) : (l.filter p).length < l.length := by
  induction l with
  | nil => cases hx
  | cons a l ih =>
    rcases List.mem_cons.mp hx with rfl | hx'
    · rw [List.filter_cons, hpx]
      exact Nat.lt_succ_of_le (l.length_filter_le p)
    · rw [List.filter_cons]
      by_cases hpa : p a = true
      · rw [if_pos hpa]
        exact Nat.succ_lt_succ (ih hx')
      · rw [if_neg hpa]
        exact Nat.lt_succ_of_lt (ih hx')

/-! ### Dispatch loop lemmas -/

theorem execList_cons (h : String) (args : List JSVal) (p : Plugin) (ps : List Plugin) :
    execList h args (p :: ps) =
      (match (execStep h args p).1 with
       | some v => (some v, (execStep h args p).2)
       | none => ((execList h args ps).1, (execStep h args p).2 ++ (execList h args ps).2)) := rfl

theorem execList_cons_some {h : String} {args : List JSVal} {p : Plugin} {v : JSVal}
    (ps : List Plugin) (hq : (execStep h args p).1 = some v) :
    execList h args (p :: ps) = (some v, (execStep h args p).2) := by
  rw [execList_cons, hq]

theorem execList_cons_none {h : String} {args : List JSVal} {p : Plugin}
    (ps : List Plugin) (hq : (execStep h args p).1 = none) :
    execList h args (p :: ps) =
      ((execList h args ps).1, (execStep h args p).2 ++ (execList h args ps).2) := by
  rw [execList_cons, hq]

theorem execList_append_absent (h : String) (args : List JSVal) (l1 rest : List Plugin)
    (habs : ∀ q ∈ l1, (execStep h args q).1 = none) :
    execList h args (l1 ++ rest) =
      ((execList h args rest).1,
       l1.flatMap (fun q => (execStep h args q).2) ++ (execList h args rest).2) := by
  induction l1 with
  | nil => simp
  | cons q l1 ih =>
    have hq : (execStep h args q).1 = none := habs q (List.mem_cons_self _ _)
    rw [List.cons_append, execList_cons_none _ hq,
      ih (fun r hr => habs r (List.mem_cons_of_mem _ hr))]
    simp [List.append_assoc]

theorem execAllList_cons (h : String) (args : List JSVal) (p : Plugin) (ps : List Plugin) :
    execAllList h args (p :: ps) =
      ((match (execStep h args p).1 with
        | some v => v :: (execAllList h args ps).1
        | none => (execAllList h args ps).1),
       (execStep h args p).2 ++ (execAllList h args ps).2) := rfl

theorem execAsyncList_cons (h : String) (args : List JSVal) (p : Plugin) (ps : List Plugin) :
    execAsyncList h args (p :: ps) =
      (match (execStepAsync h args p).1 with
       | some v => (some v, (execStepAsync h args p).2)
       | none => ((execAsyncList h args ps).1,
                  (execStepAsync h args p).2 ++ (execAsyncList h args ps).2)) := rfl

theorem execAllAsyncSeqList_cons (h : String) (args : List JSVal) (p : Plugin)
    (ps : List Plugin) :
    execAllAsyncSeqList h args (p :: ps) =
      ((match (execStepAsync h args p).1 with
        | some v => v :: (execAllAsyncSeqList h args ps).1
        | none => (execAllAsyncSeqList h args ps).1),
       (execStepAsync h args p).2 ++ (execAllAsyncSeqList h args ps).2) := rfl

/-! ### The event-loop model of the concurrent all-async strategy -/

theorem runSchedule_length (ps : List (Nat × JSVal)) (order : List Nat)
    (init : List (Option JSVal)) :
    (order.foldl (fun slots i => slots.set i (some ((ps.getD i (0, JSVal.undefined)).2))) init).length
      = init.length := by
  induction order generalizing init with
  | nil => rfl
  | cons i order ih => rw [List.foldl_cons, ih, List.length_set]

theorem runSchedule_getElem? (ps : List (Nat × JSVal)) (order : List Nat)
    (init : List (Option JSVal)) (j : Nat) (hord : ∀ i ∈ order, i < init.length) :
    (order.foldl (fun slots i => slots.set i (some ((ps.getD i (0, JSVal.undefined)).2))) init)[j]?
      = if j ∈ order then some (some ((ps.getD j (0, JSVal.undefined)).2)) else init[j]? := by
  induction order generalizing init with
  | nil => simp
  | cons i order ih =>
    rw [List.foldl_cons]
    rw [ih _ (fun i2 hi2 => by
      rw [List.length_set]; exact hord i2 (List.mem_cons_of_mem _ hi2))]
    by_cases hj : j ∈ order
    · simp [hj, List.mem_cons]
    · rw [if_neg hj]
      by_cases hji : j = i
      · subst hji
        have hlt : j < init.length := hord j (List.mem_cons_self _ _)
        rw [List.getElem?_set_self hlt, if_pos (List.mem_cons_self _ _)]
      · rw [List.getElem?_set_ne (fun hcon => hji hcon.symm),
          if_neg (fun hcon => by
            rcases List.mem_cons.mp hcon with rfl | hmem
            · exact hji rfl
            · exact hj hmem)]

/-- Resolving `Promise.all` under any completion order of the individual
promises yields the settled values in the original index order: the delays
(and hence the settlement interleaving) cannot affect the aggregate. -/
theorem promiseAllSched_perm (ps : List (Nat × JSVal)) (order : List Nat)
    (hperm : order.Perm (List.range ps.length)) :
    promiseAllSched ps order = ps.map Prod.snd := by
  unfold promiseAllSched
  have hmem : ∀ i, i ∈ order ↔ i < ps.length := fun i =>
    (hperm.mem_iff).trans List.mem_range
  have hord : ∀ i ∈ order, i < (List.replicate ps.length (none : Option JSVal)).length := by
    intro i hi
    rw [List.length_replicate]
    exact (hmem i).mp hi
  apply List.ext_getElem?
  intro j
  rw [List.getElem?_map, runSchedule_getElem? ps order _ j hord, List.getElem?_map]
  by_cases hj : j < ps.length
  · rw [if_pos ((hmem j).mpr hj)]
    rw [List.getElem?_eq_getElem hj]
    simp [List.getD_eq_getElem?_getD, List.getElem?_eq_getElem hj]
  · rw [if_neg (fun hcon => hj ((hmem j).mp hcon))]
    rw [List.getElem?_eq_none (by rw [List.length_replicate]; omega),
      List.getElem?_eq_none (by omega)]
    rfl

theorem completionOrder_perm (ps : List (Nat × JSVal)) :
    (completionOrder ps).Perm (List.range ps.length) :=
  List.perm_insertionSort _ _

theorem execStep_fn {p : Plugin} {h : String} {b : List JSVal → Outcome}
    (hg : getHookFunction p h = .fn b) (args : List JSVal) :
    execStep h args p =
      (match b args with
       | .throws _ => (none, [.called p.name, .erred p.name h])
       | .retPromise _ _ => (none, [.called p.name, .warnedAsync p.name h])
       | .ret v => (if jsPresent v then some v else none, [.called p.name])) := by
  unfold execStep
  rw [hg]

theorem execStep_notfn {p : Plugin} {h : String}
    (hg : (getHookFunction p h).isFunction = false) (args : List JSVal) :
    execStep h args p = (none, []) := by
  unfold execStep
  cases hgv : getHookFunction p h with
  | fn b => rw [hgv] at hg; simp [HookVal.isFunction] at hg
  | prim v => rfl
  | objV l => rfl

theorem execStepAsync_fn {p : Plugin} {h : String} {b : List JSVal → Outcome}
    (hg : getHookFunction p h = .fn b) (args : List JSVal) :
    execStepAsync h args p =
      (match awaitOutcome (b args) with
       | .error _ => (none, [.called p.name, .erred p.name h])
       | .ok v => (if jsPresent v then some v else none, [.called p.name])) := by
  unfold execStepAsync
  rw [hg]

theorem execStepAsync_notfn {p : Plugin} {h : String}
    (hg : (getHookFunction p h).isFunction = false) (args : List JSVal) :
    execStepAsync h args p = (none, []) := by
  unfold execStepAsync
  cases hgv : getHookFunction p h with
  | fn b => rw [hgv] at hg; simp [HookVal.isFunction] at hg
  | prim v => rfl
  | objV l => rfl

theorem asyncPromise_fn {p : Plugin} {h : String} {b : List JSVal → Outcome}
    (hg : getHookFunction p h = .fn b) (args : List JSVal) :
    asyncPromise h args p =
      (match b args with
       | .ret v => ((0, v), [.called p.name])
       | .retPromise d (.ok v) => ((d, v), [.called p.name])
       | .retPromise d (.error _) => ((d, .null), [.called p.name, .erred p.name h])
       | .throws _ => ((0, .null), [.called p.name, .erred p.name h])) := by
  unfold asyncPromise
  rw [hg]

theorem asyncPromise_notfn {p : Plugin} {h : String}
    (hg : (getHookFunction p h).isFunction = false) (args : List JSVal) :
    asyncPromise h args p = ((0, .null), []) := by
  unfold asyncPromise
  cases hgv : getHookFunction p h with
  | fn b => rw [hgv] at hg; simp [HookVal.isFunction] at hg
  | prim v => rfl
  | objV l => rfl

/-- The sequential awaiting step agrees pointwise with the settled value of
the per-candidate promise of the concurrent strategy: a present settled
value is the collected result, and an absent or caught-to-null settlement
is skipped, with identical diagnostics. -/
theorem execStepAsync_eq_asyncPromise (h : String) (args : List JSVal) (p : Plugin) :
    execStepAsync h args p =
      ((if jsPresent (asyncPromise h args p).1.2 then some (asyncPromise h args p).1.2
        else none),
       (asyncPromise h args p).2) := by
  cases hg : getHookFunction p h with
  | fn b =>
    rw [execStepAsync_fn hg, asyncPromise_fn hg]
    cases hb : b args with
    | ret v => rfl
    | retPromise d r =>
      cases r with
      | ok v => rfl
      | error e => rfl
    | throws e => rfl
  | prim v =>
    rw [execStepAsync_notfn (by rw [hg]; rfl) args, asyncPromise_notfn (by rw [hg]; rfl) args]
    rfl
  | objV l =>
    rw [execStepAsync_notfn (by rw [hg]; rfl) args, asyncPromise_notfn (by rw [hg]; rfl) args]
    rfl

theorem execAllAsyncSeqList_eq (h : String) (args : List JSVal) (cand : List Plugin) :
    execAllAsyncSeqList h args cand =
      ((cand.map (fun p => (asyncPromise h args p).1.2)).filter jsPresent,
       cand.flatMap (fun p => (asyncPromise h args p).2)) := by
  induction cand with
  | nil => rfl
  | cons p ps ih =>
    rw [execAllAsyncSeqList_cons, execStepAsync_eq_asyncPromise, ih]
    by_cases hv : jsPresent (asyncPromise h args p).1.2 <;>
      simp [List.filter_cons, List.flatMap_cons, hv]

/-- The output of the concurrent all-async strategy under an arbitrary
completion order: the settled values of the candidates, in candidate order,
with the absent ones filtered out. -/
theorem execAllAsyncWith_eq (order : List Nat) (s : SystemState) (h : String)
    (args : List JSVal)
    (hperm : order.Perm (List.range (resolveContents s h).length)) :
    (execAllAsyncWith order s h args).2 =
      (((resolveContents s h).map (fun p => (asyncPromise h args p).1.2)).filter jsPresent,
       (resolveContents s h).flatMap (fun p => (asyncPromise h args p).2)) := by
  unfold execAllAsyncWith
  have hres : (getPluginsWithHook s h).2.2 = resolveContents s h := rfl
  by_cases hemp : (getPluginsWithHook s h).2.2.isEmpty = true
  · have hnil : resolveContents s h = [] := List.isEmpty_iff.mp (hres ▸ hemp)
    rw [if_pos hemp]
    simp [hnil]
  · rw [if_neg hemp]
    have hfilter :
        (((getPluginsWithHook s h).2.2.map (asyncPromise h args)).map (fun pr => pr.1)).filter
            promiseTruthy
          = (resolveContents s h).map (fun p => (asyncPromise h args p).1) := by
      rw [hres, List.map_map]
      have : ∀ pr : Nat × JSVal, promiseTruthy pr = true := fun _ => rfl
      rw [List.filter_eq_self.mpr (fun a _ => this a)]
      rfl
    rw [hfilter]
    have hlen : ((resolveContents s h).map (fun p => (asyncPromise h args p).1)).length
        = (resolveContents s h).length := List.length_map _ _
    rw [promiseAllSched_perm _ order (by rw [hlen]; exact hperm)]
    rw [List.map_map, hres, List.flatMap_map]
    rfl

theorem filter_promiseTruthy (l : List (Nat × JSVal)) : l.filter promiseTruthy = l :=
  List.filter_eq_self.mpr (fun _ _ => rfl)

/-- The concurrent `execAllAsync` under its delay-induced completion order:
present settled values in candidate order. -/
theorem execAllAsync_eq (s : SystemState) (h : String) (args : List JSVal) :
    (execAllAsync s h args).2 =
      (((resolveContents s h).map (fun p => (asyncPromise h args p).1.2)).filter jsPresent,
       (resolveContents s h).flatMap (fun p => (asyncPromise h args p).2)) := by
  unfold execAllAsync
  apply execAllAsyncWith_eq
  have hsame :
      ((((getPluginsWithHook s h).2.2.map (asyncPromise h args)).map (fun pr => pr.1)).filter
        promiseTruthy).length = (resolveContents s h).length := by
    rw [filter_promiseTruthy, List.length_map, List.length_map]
    rfl
  rw [← hsame]
  exact completionOrder_perm _

/-- The sequential `execAllAsync` of part_001 computes the same result
sequence as the concurrent one. -/
theorem execAllAsyncSeq_eq (s : SystemState) (h : String) (args : List JSVal) :
    (execAllAsyncSeq s h args).2 =
      (((resolveContents s h).map (fun p => (asyncPromise h args p).1.2)).filter jsPresent,
       (resolveContents s h).flatMap (fun p => (asyncPromise h args p).2)) := by
  show execAllAsyncSeqList h args (resolveContents s h) = _
  exact execAllAsyncSeqList_eq h args _

theorem execAsyncList_cons_some {h : String} {args : List JSVal} {p : Plugin} {v : JSVal}
    (ps : List Plugin) (hq : (execStepAsync h args p).1 = some v) :
    execAsyncList h args (p :: ps) = (some v, (execStepAsync h args p).2) := by
  rw [execAsyncList_cons, hq]

theorem execAsyncList_cons_none {h : String} {args : List JSVal} {p : Plugin}
    (ps : List Plugin) (hq : (execStepAsync h args p).1 = none) :
    execAsyncList h args (p :: ps) =
      ((execAsyncList h args ps).1,
       (execStepAsync h args p).2 ++ (execAsyncList h args ps).2) := by
  rw [execAsyncList_cons, hq]

/-! ### Concrete plugins and states used by witnesses and counterexamples -/

/-- A plugin whose hook `process` declines by returning `null`. -/
def pluginDecline : Plugin :=
  { name := "a", priority := none, hooks := none,
    attrs := [("process", .fn (fun _ => .ret .null))] }

/-- A plugin whose hook `process` returns `"processed-test"`. -/
def pluginProcess : Plugin :=
  { name := "b", priority := none, hooks := none,
    attrs := [("process", .fn (fun _ => .ret (.str "processed-test")))] }

/-- The registry state right after registering the declining plugin and the
processing plugin, in that order (the result of `use` on a fresh system). -/
def sAB : SystemState :=
  { plugins := [pluginDecline, pluginProcess], hookCache := [],
    sortedPlugins := [], isDirty := true, nextId := 0 }

/-! ### C1 -/

/-- C1: first-sync dispatch invokes the candidates in resolved order and
returns the first present (non-null/undefined) result, invoking no
candidate after it; callable candidates before it that yield absent are
still invoked; present values — including falsy ones such as `0`, `""` and
`false` — pass through unchanged; when every candidate yields absent or
fails, `exec` returns the absent value. -/
theorem exec_first_match_semantics :
    (∀ (s : SystemState) (h : String) (args : List JSVal) (l1 : List Plugin) (p : Plugin)
        (l2 : List Plugin) (v : JSVal),
       resolveContents s h = l1 ++ p :: l2 →
       (∀ q ∈ l1, (execStep h args q).1 = none) →
       (execStep h args p).1 = some v →
       (exec s h args).2 =
         (some v, l1.flatMap (fun q => (execStep h args q).2) ++ (execStep h args p).2)) ∧
    (∀ (s : SystemState) (h : String) (args : List JSVal),
       (∀ q ∈ resolveContents s h, (execStep h args q).1 = none) →
       (exec s h args).2 =
         (none, (resolveContents s h).flatMap (fun q => (execStep h args q).2))) ∧
    (∀ (h : String) (args : List JSVal) (q : Plugin) (b : List JSVal → Outcome) (v : JSVal),
       getHookFunction q h = .fn b → b args = .ret v → jsPresent v = true →
       (execStep h args q).1 = some v) ∧
    (∀ (h : String) (args : List JSVal) (q : Plugin) (b : List JSVal → Outcome),
       getHookFunction q h = .fn b → Event.called q.name ∈ (execStep h args q).2) := by
  refine ⟨?_, ?_, ?_, ?_⟩
  · intro s h args l1 p l2 v hsplit habs hp
    show execList h args (resolveContents s h) = _
    rw [hsplit, execList_append_absent h args l1 _ habs, execList_cons_some l2 hp]
  · intro s h args habs
    show execList h args (resolveContents s h) = _
    rw [show resolveContents s h = resolveContents s h ++ [] from (List.append_nil _).symm,
      execList_append_absent h args _ [] (by simpa using habs)]
    simp
    exact ⟨rfl, rfl⟩
  · intro h args q b v hg hb hv
    rw [execStep_fn hg args, hb]
    simp [hv]
  · intro h args q b hg
    rw [execStep_fn hg args]
    cases hb : b args with
    | ret v => simp
    | retPromise d r => simp
    | throws e => simp

/-- C1 witness: on the two-plugin registry, `exec` invokes the declining
plugin, then the processing plugin, and returns its string unchanged. -/
theorem exec_first_match_semantics_witness :
    (exec sAB "process" []).2 =
      (some (.str "processed-test"), [.called "a", .called "b"]) := by
  have hmain := exec_first_match_semantics.1 sAB "process" [] [pluginDecline]
    pluginProcess [] (.str "processed-test") rfl
    (by
      intro q hq
      rcases List.mem_singleton.mp hq with rfl
      rfl)
    rfl
  exact hmain.trans rfl

/-! ### C3 -/

/-- A priority-1 plugin implementing hook `go`. -/
def pluginPrio1 : Plugin :=
  { name := "p1", priority := some 1, hooks := none,
    attrs := [("go", .fn (fun _ => .ret (.num 1)))] }

/-- A priority-10 plugin implementing hook `go`. -/
def pluginPrio10 : Plugin :=
  { name := "p10", priority := some 10, hooks := none,
    attrs := [("go", .fn (fun _ => .ret (.num 10)))] }

/-- A default-priority plugin implementing hook `go`. -/
def pluginPrio0 : Plugin :=
  { name := "p0", priority := none,
    hooks := none, attrs := [("go", .fn (fun _ => .ret (.num 0)))] }

/-- The registry state after registering priorities 1, 10, default. -/
def sPrio : SystemState :=
  { plugins := [pluginPrio1, pluginPrio10, pluginPrio0], hookCache := [],
    sortedPlugins := [], isDirty := true, nextId := 0 }

/-- C3: the priority-sorted view used by resolve and the dispatch
strategies is a stable sort of the plugin sequence by descending priority:
it is a permutation, sorted under the descending-priority order, preserving
for every priority key the original relative order of equal-priority
plugins; an absent priority sorts as priority 0. -/
theorem sorted_view_is_stable_descending_sort (s : SystemState) (hs : Reachable s) :
    (ensureSorted s).sortedPlugins = sortPlugins s.plugins ∧
    (sortPlugins s.plugins).Perm s.plugins ∧
    (sortPlugins s.plugins).Pairwise prioGE ∧
    (∀ k : Int, (sortPlugins s.plugins).filter (prioIs k) = s.plugins.filter (prioIs k)) ∧
    (∀ (nm : String) (hv : Option HookVal) (ats : List (String × HookVal)),
       prio { name := nm, priority := none, hooks := hv, attrs := ats } = 0) := by
  refine ⟨?_, sortPlugins_perm _, sortPlugins_sorted _,
    fun k => sortPlugins_stable k _, fun _ _ _ => rfl⟩
  rw [ensureSorted_eq (reachable_inv hs)]

/-- C3 witness: on the concrete priorities `[1, 10, default]` the view is
`[10, 1, default]`, reachable from a fresh registry by one registration. -/
theorem sorted_view_is_stable_descending_sort_witness :
    (ensureSorted sPrio).sortedPlugins = sortPlugins sPrio.plugins ∧
    sortPlugins sPrio.plugins = [pluginPrio10, pluginPrio1, pluginPrio0] := by
  obtain ⟨h1, _, _, _, _⟩ := sorted_view_is_stable_descending_sort sPrio
    (@Reachable.useStep emptySystem sPrio
      [.single pluginPrio1, .single pluginPrio10, .single pluginPrio0] []
      Reachable.init rfl)
  exact ⟨h1, rfl⟩

/-! ### C2 -/

/-- The spec's duplicate example: priority-1 plugin named `x`. -/
def pluginX1 : Plugin := { name := "x", priority := some 1, hooks := none, attrs := [] }

/-- The spec's duplicate example: priority-2 plugin named `x`. -/
def pluginX2 : Plugin := { name := "x", priority := some 2, hooks := none, attrs := [] }

/-- C2: in every reachable registry state, plugin names are pairwise
distinct; a successful registration appends an accepted subsequence of the
flattened batch that contains, for every name not already registered, the
first flattened plugin of that name — so the earlier plugin, whether
already registered or accepted earlier in the same call, keeps its
identity, priority and hooks — and every flattened plugin whose name
collides with the registry or with any earlier plugin of the same batch is
warned about as a dropped duplicate. -/
theorem registry_names_unique (s : SystemState) (hs : Reachable s) :
    (s.plugins.map Plugin.name).Nodup ∧
    (∀ (inputs : List PluginInput) (s2 : SystemState) (evs : List Event),
       use s inputs = .ok (s2, evs) →
       ((s2.plugins.map Plugin.name).Nodup ∧
        (∀ ps, flattenPlugins inputs = .ok ps →
           ∃ acc, s2.plugins = s.plugins ++ acc ∧
             acc.Sublist ps ∧
             (∀ p ∈ acc, p.name ∉ s.plugins.map Plugin.name) ∧
             (∀ l1 p l2, ps = l1 ++ p :: l2 →
                p.name ∉ s.plugins.map Plugin.name → p.name ∉ l1.map Plugin.name →
                p ∈ acc) ∧
             (∀ l1 p l2, ps = l1 ++ p :: l2 →
                (p.name ∈ s.plugins.map Plugin.name ∨ p.name ∈ l1.map Plugin.name) →
                Event.warnedDup p.name ∈ evs)))) := by
  refine ⟨(reachable_inv hs).1, ?_⟩
  intro inputs s2 evs huse
  have hnd2 := (inv_use (reachable_inv hs) huse).1
  obtain ⟨ps, hflat, rfl, hevs⟩ := use_ok_shape huse
  refine ⟨hnd2, ?_⟩
  intro ps2 hflat2
  rw [hflat] at hflat2
  injection hflat2 with h2
  subst h2
  refine ⟨_, rfl, acceptLoop_sublist _ _, ?_, ?_, ?_⟩
  · intro p hp
    exact (acceptLoop_spec (s.plugins.map (·.name)) ps).2 p hp
  · intro l1 p l2 hsplit hf1 hf2
    subst hsplit
    exact acceptLoop_first_fresh_accepted _ l1 p l2 hf1 hf2
  · intro l1 p l2 hsplit hdup
    subst hsplit
    rw [hevs]
    exact acceptLoop_batch_dup_warned _ l1 p l2 hdup

/-- C2 witness: registering `{x, priority 1}` and `{x, priority 2}` in the
same call keeps the first (priority-1) plugin, warns about the in-batch
duplicate, and leaves the names duplicate-free. -/
theorem registry_names_unique_witness :
    ∃ s2 evs, use emptySystem [.single pluginX1, .single pluginX2] = .ok (s2, evs) ∧
      s2.plugins = [pluginX1] ∧ (s2.plugins.map Plugin.name).Nodup ∧
      Event.warnedDup "x" ∈ evs ∧ pluginX1 ∈ s2.plugins := by
  obtain ⟨-, h2⟩ := registry_names_unique emptySystem Reachable.init
  have huse : use emptySystem [.single pluginX1, .single pluginX2] =
      .ok ({ plugins := [pluginX1], hookCache := [], sortedPlugins := [],
             isDirty := true, nextId := 0 }, [.warnedDup "x"]) := rfl
  obtain ⟨hnd2, hbatch⟩ := h2 _ _ _ huse
  obtain ⟨acc, hacc, -, -, hfirst, hwarn⟩ := hbatch [pluginX1, pluginX2] rfl
  refine ⟨_, _, huse, rfl, hnd2, ?_, ?_⟩
  · exact hwarn [pluginX1] pluginX2 [] rfl (Or.inr (by decide))
  · have hmem := hfirst [] pluginX1 [pluginX2] rfl (by decide) (by decide)
    rw [hacc]
    exact List.mem_append_right _ hmem

/-! ### C4 -/

theorem typeofStr_function (hv : HookVal) : (hv.typeofStr == "function") = hv.isFunction := by
  cases hv with
  | fn b => rfl
  | objV l => rfl
  | prim v => cases v <;> rfl

/-- The plugin refuting C4: its only association with hook `h` is the
non-callable value `42` inside its `hooks` container. -/
def pluginQ : Plugin :=
  { name := "q", priority := none,
    hooks := some (.objV [("h", .prim (.num 42))]), attrs := [] }

/-- The registry holding only `pluginQ` (the result of registering it on a
fresh system). -/
def sQ : SystemState :=
  { plugins := [pluginQ], hookCache := [], sortedPlugins := [], isDirty := true, nextId := 0 }

/-- C4 counterexample: the claim says resolve returns exactly the plugins
with a *callable* resolvable hook implementation; but the source's filter
only tests key membership inside the `hooks` container, so a plugin whose
`hooks.h` is the non-callable `42` is returned by resolve even though no
hook implementation is resolvable for it under the spec's precedence rule,
under which the result would be empty. -/
theorem resolve_includes_noncallable_nested :
    use emptySystem [.single pluginQ] = .ok (sQ, []) ∧
    resolveContents sQ "h" = [pluginQ] ∧
    specHookResolvable pluginQ "h" = false ∧
    (sortPlugins sQ.plugins).filter (fun p => specHookResolvable p "h") = [] :=
  ⟨rfl, rfl, rfl, rfl⟩

/-- C4 (amended): resolve returns exactly those plugins of the sorted view
whose `hooks` field is a non-null object containing the hook name as a key
(whether or not that entry is callable), or that carry a callable direct
property of the hook name; a plugin whose only direct association is a
non-callable property is excluded, and an absent, null, or non-object
`hooks` value contributes no nested candidate and raises no error. -/
theorem resolve_filter_characterization (s : SystemState) (h : String) (hs : Reachable s) :
    resolveContents s h = (sortPlugins s.plugins).filter (fun p => pluginPassesFilter p h) ∧
    (∀ p : Plugin,
       pluginPassesFilter p h =
         ((match p.hooks with
           | some (.objV l) => (l.lookup h).isSome
           | _ => false)
          || (p.hasProp h && (p.getProp h).isFunction))) := by
  refine ⟨resolveContents_eq (reachable_inv hs) h, ?_⟩
  intro p
  unfold pluginPassesFilter
  rw [typeofStr_function]
  cases hhv : p.hooks with
  | none => simp [Plugin.hooksVal, hhv, HookVal.truthy, JSVal.truthy]
  | some hv =>
    cases hv with
    | fn b => simp [Plugin.hooksVal, hhv, HookVal.truthy, HookVal.typeofStr]
    | objV l => simp [Plugin.hooksVal, hhv, HookVal.truthy, HookVal.typeofStr,
        HookVal.isNullLit, jsIn]
    | prim v =>
      cases v <;>
        simp [Plugin.hooksVal, hhv, HookVal.truthy, JSVal.truthy, HookVal.typeofStr,
          HookVal.isNullLit, jsIn]

/-- C4 witness: on the registry holding only `pluginQ`, the candidate list
for `h` (and for the unimplemented `onInit`) is exactly the sorted view
filtered by the source predicate, and the `onInit` result is empty. -/
theorem resolve_filter_characterization_witness :
    (resolveContents sQ "h" =
       (sortPlugins sQ.plugins).filter (fun p => pluginPassesFilter p "h")) ∧
    (resolveContents sQ "onInit" =
       (sortPlugins sQ.plugins).filter (fun p => pluginPassesFilter p "onInit")) ∧
    resolveContents sQ "onInit" = [] := by
  have hreach : Reachable sQ :=
    @Reachable.useStep emptySystem sQ [.single pluginQ] [] Reachable.init rfl
  exact ⟨(resolve_filter_characterization sQ "h" hreach).1,
    (resolve_filter_characterization sQ "onInit" hreach).1, rfl⟩

/-! ### C5 -/

theorem resolveId_miss_ge {s : SystemState} (hs : Inv s) {h : String}
    (hc : s.hookCache.lookup h = none) : s.nextId ≤ resolveId s h := by
  unfold resolveId
  rw [getPluginsWithHook_miss hs hc]
  split_ifs <;> dsimp only <;> omega

/-- C5 counterexample: on the empty registry (where the result is empty)
the first resolve call returns a freshly frozen empty array (allocation id
1) while caching a different empty array (id 0); the second consecutive
call — with no intervening mutation — returns the cached array, a
different object, so the calls are not reference-stable and no shared
empty-sequence singleton exists. -/
theorem resolve_empty_not_reference_stable :
    resolveContents emptySystem "h" = [] ∧
    resolveId emptySystem "h" = 1 ∧
    resolveId ((getPluginsWithHook emptySystem "h").1) "h" = 0 ∧
    resolveId emptySystem "h" ≠ resolveId ((getPluginsWithHook emptySystem "h").1) "h" :=
  ⟨rfl, rfl, rfl, by decide⟩

/-- A plugin with a nested hook `h` that returns `1`. -/
def pluginA : Plugin :=
  { name := "a", priority := none,
    hooks := some (.objV [("h", .fn (fun _ => .ret (.num 1)))]), attrs := [] }

/-- The registry holding only `pluginA` (the result of registering it on a
fresh system). -/
def sA : SystemState :=
  { plugins := [pluginA], hookCache := [], sortedPlugins := [], isDirty := true, nextId := 0 }

/-- The registry holding `pluginA` with hook `h` already resolved and
cached (allocation id 0). -/
def sA1 : SystemState := (getPluginsWithHook sA "h").1

/-- When the removed name is present, `remove` filters it out and
invalidates: dirty flag set, hook cache cleared, counter untouched. -/
theorem remove_present_shape {s : SystemState} {n : String}
    (hn : n ∈ s.plugins.map Plugin.name) :
    remove s n = { s with plugins := s.plugins.filter (fun p => p.name ≠ n),
                          isDirty := true, hookCache := [] } := by
  obtain ⟨p, hp, hpn⟩ := List.mem_map.mp hn
  have hlt : (s.plugins.filter (fun p => p.name ≠ n)).length < s.plugins.length :=
    length_filter_lt_of_mem hp (by simp [hpn])
  unfold remove
  rw [if_pos (by omega)]

/-- C5 (amended): a cache-hit resolve returns exactly the cached array
object and leaves the registry untouched, so from the second call onward
consecutive resolve calls return the identical object; a cache-missing
call with a non-empty result returns the very array it caches (identical
already from the first call); a cache-missing call with an empty result
returns a fresh frozen empty array distinct from the (empty) array it
caches, so the next call returns a different object and no shared empty
singleton exists; after any mutation — a registration, a removal that
changes the plugin count, or a clear — the cache is empty and the
following resolve returns a freshly allocated object distinct from every
previously cached one. -/
theorem resolve_cache_identity (s : SystemState) (h : String) (hs : Reachable s) :
    (∀ entry, s.hookCache.lookup h = some entry → getPluginsWithHook s h = (s, entry)) ∧
    ((getPluginsWithHook ((getPluginsWithHook s h).1) h).1 = (getPluginsWithHook s h).1) ∧
    (resolveId ((getPluginsWithHook s h).1) h
       = resolveId ((getPluginsWithHook ((getPluginsWithHook s h).1) h).1) h) ∧
    (resolveContents s h ≠ [] →
       resolveId s h = resolveId ((getPluginsWithHook s h).1) h ∧
       resolveContents s h = resolveContents ((getPluginsWithHook s h).1) h) ∧
    (s.hookCache.lookup h = none → resolveContents s h = [] →
       resolveId s h ≠ resolveId ((getPluginsWithHook s h).1) h) ∧
    (∀ (inputs : List PluginInput) (s2 : SystemState) (evs : List Event),
       use s inputs = .ok (s2, evs) →
       s2.hookCache = [] ∧ ∀ e ∈ s.hookCache, resolveId s2 h ≠ e.2.1) ∧
    (∀ n, n ∈ s.plugins.map Plugin.name →
       (remove s n).hookCache = [] ∧
       ∀ e ∈ s.hookCache, resolveId (remove s n) h ≠ e.2.1) ∧
    ((clear s).hookCache = [] ∧
     ∀ e ∈ s.hookCache, resolveId (clear s) h ≠ e.2.1) := by
  have hinv := reachable_inv hs
  have hfix : (getPluginsWithHook ((getPluginsWithHook s h).1) h).1
      = (getPluginsWithHook s h).1 := by
    obtain ⟨e, he, -⟩ := post_lookup hinv h
    rw [getPluginsWithHook_hit he]
  refine ⟨fun entry hentry => getPluginsWithHook_hit hentry, hfix, by rw [hfix],
    ?_, ?_, ?_, ?_, ?_⟩
  · intro hne
    cases hc : s.hookCache.lookup h with
    | some entry =>
      constructor <;>
        simp [resolveId, resolveContents, getPluginsWithHook_hit hc]
    | none =>
      have hmiss := getPluginsWithHook_miss hinv hc
      by_cases hlen :
          ((sortPlugins s.plugins).filter (fun p => pluginPassesFilter p h)).length > 0
      · have hs1 : (getPluginsWithHook s h).1 =
            { s with
              hookCache := s.hookCache
                ++ [(h, s.nextId,
                     (sortPlugins s.plugins).filter (fun p => pluginPassesFilter p h))],
              sortedPlugins := sortPlugins s.plugins, isDirty := false,
              nextId := s.nextId + 1 } := by
          rw [hmiss, if_pos hlen]
        have hlook : ((getPluginsWithHook s h).1).hookCache.lookup h =
            some (s.nextId,
              (sortPlugins s.plugins).filter (fun p => pluginPassesFilter p h)) := by
          rw [hs1]
          dsimp only
          rw [lookup_append_of_none _ hc]
          exact List.lookup_cons_self
        constructor
        · unfold resolveId
          rw [getPluginsWithHook_hit hlook, hmiss, if_pos hlen]
        · unfold resolveContents
          rw [getPluginsWithHook_hit hlook, hmiss, if_pos hlen]
      · exfalso
        apply hne
        unfold resolveContents
        rw [hmiss, if_neg hlen]
  · intro hc hempty
    have hmiss := getPluginsWithHook_miss hinv hc
    by_cases hlen :
        ((sortPlugins s.plugins).filter (fun p => pluginPassesFilter p h)).length > 0
    · exfalso
      unfold resolveContents at hempty
      rw [hmiss, if_pos hlen] at hempty
      dsimp only at hempty
      rw [hempty] at hlen
      simp at hlen
    · have hs1 : (getPluginsWithHook s h).1 =
          { s with
            hookCache := s.hookCache
              ++ [(h, s.nextId,
                   (sortPlugins s.plugins).filter (fun p => pluginPassesFilter p h))],
            sortedPlugins := sortPlugins s.plugins, isDirty := false,
            nextId := s.nextId + 2 } := by
        rw [hmiss, if_neg hlen]
      have hlook : ((getPluginsWithHook s h).1).hookCache.lookup h =
          some (s.nextId,
            (sortPlugins s.plugins).filter (fun p => pluginPassesFilter p h)) := by
        rw [hs1]
        dsimp only
        rw [lookup_append_of_none _ hc]
        exact List.lookup_cons_self
      have h1 : resolveId s h = s.nextId + 1 := by
        unfold resolveId
        rw [hmiss, if_neg hlen]
      have h2 : resolveId ((getPluginsWithHook s h).1) h = s.nextId := by
        unfold resolveId
        rw [getPluginsWithHook_hit hlook]
      rw [h1, h2]
      omega
  · intro inputs s2 evs huse
    have hinv2 := inv_use hinv huse
    obtain ⟨ps, hflat, hs2, -⟩ := use_ok_shape huse
    have hcache : s2.hookCache = [] := by rw [hs2]
    refine ⟨hcache, ?_⟩
    intro e he
    have hclean : s2.hookCache.lookup h = none := by rw [hcache]; rfl
    have hge := resolveId_miss_ge hinv2 hclean
    have hnx : s2.nextId = s.nextId := by rw [hs2]
    have hlt := (hinv.2.2 e he).2
    omega
  · intro n hn
    have hsh := remove_present_shape hn
    have hc2 : (remove s n).hookCache = [] := by rw [hsh]
    refine ⟨hc2, ?_⟩
    intro e he
    have hclean : (remove s n).hookCache.lookup h = none := by rw [hc2]; rfl
    have hge := resolveId_miss_ge (inv_remove hinv n) hclean
    have hnx : (remove s n).nextId = s.nextId := by rw [hsh]
    have hlt := (hinv.2.2 e he).2
    omega
  · refine ⟨rfl, ?_⟩
    intro e he
    have hclean : (clear s).hookCache.lookup h = none := rfl
    have hge := resolveId_miss_ge (inv_clear hinv) hclean
    have hnx : (clear s).nextId = s.nextId := rfl
    have hlt := (hinv.2.2 e he).2
    omega

/-- C5 witness: on the one-plugin registry, a non-empty resolve result is
reference-stable already from the first call; and on the cached registry,
a count-changing removal and a clear both empty the cache, with the
subsequent resolve allocating an object distinct from the cached id 0. -/
theorem resolve_cache_identity_witness :
    (resolveId sA "h" = resolveId ((getPluginsWithHook sA "h").1) "h" ∧
     resolveContents sA "h" = resolveContents ((getPluginsWithHook sA "h").1) "h") ∧
    ((remove sA1 "a").hookCache = [] ∧ resolveId (remove sA1 "a") "h" ≠ 0) ∧
    ((clear sA1).hookCache = [] ∧ resolveId (clear sA1) "h" ≠ 0) := by
  have hreach : Reachable sA :=
    @Reachable.useStep emptySystem sA [.single pluginA] [] Reachable.init rfl
  have hreach1 : Reachable sA1 := Reachable.queryStep hreach
  refine ⟨?_, ?_, ?_⟩
  · exact (resolve_cache_identity sA "h" hreach).2.2.2.1 (by
      rw [show resolveContents sA "h" = [pluginA] from rfl]
      exact List.cons_ne_nil _ _)
  · have hr := (resolve_cache_identity sA1 "h" hreach1).2.2.2.2.2.2.1 "a" (by decide)
    exact ⟨hr.1, hr.2 ("h", 0, [pluginA]) (List.mem_singleton_self _)⟩
  · have hc := (resolve_cache_identity sA1 "h" hreach1).2.2.2.2.2.2.2
    exact ⟨hc.1, hc.2 ("h", 0, [pluginA]) (List.mem_singleton_self _)⟩

/-! ### C9 -/

/-- C9 counterexample: with hook `h` cached, a `use` call whose only
flattened plugin is a rejected duplicate — so nothing is accepted — still
clears the hook cache and marks the registry dirty (the source invalidates
unconditionally), and the subsequent resolve returns a freshly allocated
array (id 1) instead of the previously cached one (id 0). -/
theorem use_all_duplicates_still_invalidates :
    sA1.hookCache.lookup "h" = some (0, [pluginA]) ∧
    resolveId sA1 "h" = 0 ∧
    (match use sA1 [.single pluginA] with
     | .ok (s2, evs) =>
         evs = [.warnedDup "a"] ∧ s2.plugins = sA1.plugins ∧
         s2.hookCache = [] ∧ s2.isDirty = true ∧ resolveId s2 "h" = 1
     | .error _ => False) :=
  ⟨rfl, rfl, rfl, rfl, rfl, rfl, rfl⟩

/-- C9 (amended): `use` marks the registry dirty and clears the hook cache
unconditionally — even when every flattened plugin is a rejected duplicate
or there are no plugins at all; `remove` invalidates only when the plugin
count changed: removing an absent name leaves the whole state (hence the
hook cache) untouched, so a subsequent resolve for a cached hook name
returns the previously cached array, while removing a present name clears
the cache and sets the dirty flag. -/
theorem mutation_invalidation (s : SystemState) :
    (∀ (inputs : List PluginInput) (s2 : SystemState) (evs : List Event),
       use s inputs = .ok (s2, evs) → s2.isDirty = true ∧ s2.hookCache = []) ∧
    (∀ n, n ∉ s.plugins.map Plugin.name → remove s n = s) ∧
    (∀ n, n ∈ s.plugins.map Plugin.name →
       (remove s n).hookCache = [] ∧ (remove s n).isDirty = true) ∧
    (∀ n h entry, n ∉ s.plugins.map Plugin.name → s.hookCache.lookup h = some entry →
       getPluginsWithHook (remove s n) h = (remove s n, entry)) := by
  have habsent : ∀ n, n ∉ s.plugins.map Plugin.name → remove s n = s := by
    intro n hn
    have hfilt : s.plugins.filter (fun p => p.name ≠ n) = s.plugins :=
      List.filter_eq_self.mpr (fun p hp => by
        simp only [decide_eq_true_eq]
        exact fun hcon => hn (hcon ▸ List.mem_map_of_mem Plugin.name hp))
    unfold remove
    rw [hfilt, if_neg (fun hcon => hcon rfl)]
  refine ⟨?_, habsent, ?_, ?_⟩
  · intro inputs s2 evs huse
    obtain ⟨ps, -, rfl, -⟩ := use_ok_shape huse
    exact ⟨rfl, rfl⟩
  · intro n hn
    obtain ⟨p, hp, hpn⟩ := List.mem_map.mp hn
    have hlt : (s.plugins.filter (fun p => p.name ≠ n)).length < s.plugins.length :=
      length_filter_lt_of_mem hp (by simp [hpn])
    unfold remove
    rw [if_pos (by omega)]
    exact ⟨rfl, rfl⟩
  · intro n h entry hn hentry
    rw [habsent n hn]
    exact getPluginsWithHook_hit hentry

/-- C9 witness: a duplicate-only registration on the cached registry marks
it dirty and clears the cache; removing an absent name is a strict no-op,
so the next resolve still returns the cached array object. -/
theorem mutation_invalidation_witness :
    (∃ s2 evs, use sA1 [.single pluginA] = .ok (s2, evs) ∧
       s2.isDirty = true ∧ s2.hookCache = []) ∧
    remove sA1 "zz" = sA1 ∧
    getPluginsWithHook (remove sA1 "zz") "h" = (remove sA1 "zz", (0, [pluginA])) := by
  obtain ⟨h1, h2, h3, h4⟩ := mutation_invalidation sA1
  have huse : use sA1 [.single pluginA] =
      .ok ({ plugins := [pluginA], hookCache := [], sortedPlugins := [pluginA],
             isDirty := true, nextId := 1 }, [.warnedDup "a"]) := rfl
  refine ⟨⟨_, _, huse, (h1 _ _ _ huse).1, (h1 _ _ _ huse).2⟩,
    h2 "zz" (by decide), h4 "zz" "h" (0, [pluginA]) (by decide) rfl⟩

/-! ### C6 -/

/-- C6 counterexample: a factory that throws during registration is not
caught — the exception escapes `use` to the caller instead of being
diagnosed and isolated at the call site. -/
theorem factory_throw_escapes :
    use emptySystem [.factory (.error (.str "boom"))] = .error (.str "boom") := rfl

/-- C6 (amended): every failure of a *hook invocation* is caught at the
call site, diagnosed with the plugin and hook names, treated as an absent
result, and dispatch proceeds with the remaining candidates — for a
synchronous throw under the sync strategies, for a rejected promise or a
synchronous throw under the sequential async dispatcher (both funnel
through the same await), and for a rejection under the concurrent
all-async dispatcher (caught to null and excluded) — but a factory that
throws during registration is not caught: the exception propagates out of
`use` to the caller. -/
theorem hook_failures_contained :
    (∀ (h : String) (args : List JSVal) (p : Plugin) (b : List JSVal → Outcome)
        (e : JSVal) (rest : List Plugin),
       getHookFunction p h = .fn b → b args = .throws e →
       execList h args (p :: rest)
         = ((execList h args rest).1,
            .called p.name :: .erred p.name h :: (execList h args rest).2)) ∧
    (∀ (h : String) (args : List JSVal) (p : Plugin) (b : List JSVal → Outcome)
        (e : JSVal) (rest : List Plugin),
       getHookFunction p h = .fn b → b args = .throws e →
       execAllList h args (p :: rest)
         = ((execAllList h args rest).1,
            .called p.name :: .erred p.name h :: (execAllList h args rest).2)) ∧
    (∀ (h : String) (args : List JSVal) (p : Plugin) (b : List JSVal → Outcome)
        (e : JSVal) (rest : List Plugin),
       getHookFunction p h = .fn b →
       (b args = .throws e ∨ ∃ d, b args = .retPromise d (.error e)) →
       execAsyncList h args (p :: rest)
         = ((execAsyncList h args rest).1,
            .called p.name :: .erred p.name h :: (execAsyncList h args rest).2)) ∧
    (∀ (d : Nat) (e : JSVal),
       awaitOutcome (.throws e) = awaitOutcome (.retPromise d (.error e))) ∧
    (∀ (h : String) (args : List JSVal) (p : Plugin) (b : List JSVal → Outcome)
        (e : JSVal) (d : Nat),
       getHookFunction p h = .fn b → b args = .retPromise d (.error e) →
       asyncPromise h args p = ((d, .null), [.called p.name, .erred p.name h])) ∧
    (∀ (s : SystemState) (e : JSVal) (inputs : List PluginInput),
       use s (.factory (.error e) :: inputs) = .error e) := by
  refine ⟨?_, ?_, ?_, fun _ _ => rfl, ?_, fun _ _ _ => rfl⟩
  · intro h args p b e rest hg hb
    have hstep : execStep h args p = (none, [.called p.name, .erred p.name h]) := by
      rw [execStep_fn hg args, hb]
    rw [execList_cons_none rest (by rw [hstep]), hstep]
    rfl
  · intro h args p b e rest hg hb
    have hstep : execStep h args p = (none, [.called p.name, .erred p.name h]) := by
      rw [execStep_fn hg args, hb]
    rw [execAllList_cons, hstep]
    rfl
  · intro h args p b e rest hg hdisj
    have hstep : execStepAsync h args p = (none, [.called p.name, .erred p.name h]) := by
      rcases hdisj with hb | ⟨d, hb⟩
      · rw [execStepAsync_fn hg args, hb]
        rfl
      · rw [execStepAsync_fn hg args, hb]
        rfl
    rw [execAsyncList_cons_none rest (by rw [hstep]), hstep]
    rfl
  · intro h args p b e d hg hb
    rw [asyncPromise_fn hg args, hb]

/-- A plugin whose hook `process` throws synchronously. -/
def pluginFaulty : Plugin :=
  { name := "faulty", priority := none, hooks := none,
    attrs := [("process", .fn (fun _ => .throws (.str "fail")))] }

/-- C6 witness: the throwing plugin is diagnosed and dispatch proceeds to
the backup plugin, whose result is returned — no exception escapes. -/
theorem hook_failures_contained_witness :
    execList "process" [] (pluginFaulty :: [pluginProcess])
      = (some (.str "processed-test"),
         [.called "faulty", .erred "faulty" "process", .called "b"]) := by
  have h1 := hook_failures_contained.1 "process" [] pluginFaulty _ (.str "fail")
    [pluginProcess] rfl rfl
  rw [h1]
  rfl

/-! ### C7 -/

/-- C7: a candidate whose hook returns a Promise under either synchronous
strategy (`exec` or `execAll`) is not awaited: a warning identifying the
plugin and the hook is emitted, its result is treated as absent, no
exception is raised, and dispatch continues with the next candidate, whose
result is returned (exec) or collected (execAll); the same candidate
dispatched under the asynchronous strategy yields the promise's resolved
value. -/
theorem sync_promise_misuse_warned (s : SystemState) (h : String) (args : List JSVal)
    (p q : Plugin) (bp bq : List JSVal → Outcome) (d : Nat) (v w : JSVal)
    (hcand : resolveContents s h = [p, q])
    (hp : getHookFunction p h = .fn bp) (hbp : bp args = .retPromise d (.ok v))
    (hq : getHookFunction q h = .fn bq) (hbq : bq args = .ret w)
    (hv : jsPresent v = true) (hw : jsPresent w = true) :
    (exec s h args).2
      = (some w, [.called p.name, .warnedAsync p.name h, .called q.name]) ∧
    (execAll s h args).2
      = ([w], [.called p.name, .warnedAsync p.name h, .called q.name]) ∧
    (execAsync s h args).2 = (some v, [.called p.name]) := by
  have hstepp : execStep h args p = (none, [.called p.name, .warnedAsync p.name h]) := by
    rw [execStep_fn hp args, hbp]
  have hstepq : execStep h args q = (some w, [.called q.name]) := by
    rw [execStep_fn hq args, hbq]
    simp [hw]
  have hastep : execStepAsync h args p = (some v, [.called p.name]) := by
    rw [execStepAsync_fn hp args, hbp]
    show (match awaitOutcome (.retPromise d (.ok v)) with
      | .error _ => (none, [Event.called p.name, Event.erred p.name h])
      | .ok v2 => (if jsPresent v2 = true then some v2 else none,
                   [Event.called p.name])) = _
    simp [awaitOutcome, hv]
  refine ⟨?_, ?_, ?_⟩
  · show execList h args (resolveContents s h) = _
    rw [hcand, execList_cons_none _ (by rw [hstepp]),
      execList_cons_some _ (show (execStep h args q).1 = some w by rw [hstepq]),
      hstepp, hstepq]
    rfl
  · show execAllList h args (resolveContents s h) = _
    rw [hcand]
    simp only [execAllList_cons, hstepp, hstepq]
    rfl
  · show execAsyncList h args (resolveContents s h) = _
    rw [hcand,
      execAsyncList_cons_some _ (show (execStepAsync h args p).1 = some v by rw [hastep]),
      hastep]

/-- A plugin whose hook `process` returns a Promise resolving to
`"async-value"` after a delay. -/
def pluginPromise : Plugin :=
  { name := "pr", priority := none, hooks := none,
    attrs := [("process", .fn (fun _ => .retPromise 3 (.ok (.str "async-value"))))] }

/-- The registry holding the promise-returning plugin before the
plain-returning plugin. -/
def sPQ : SystemState :=
  { plugins := [pluginPromise, pluginProcess], hookCache := [], sortedPlugins := [],
    isDirty := true, nextId := 0 }

/-- C7 witness: both synchronous strategies warn about the
promise-returning plugin, treat it as absent and continue to the next
candidate (returning / collecting its value); async dispatch of the same
hook yields the resolved value. -/
theorem sync_promise_misuse_warned_witness :
    (exec sPQ "process" []).2
      = (some (.str "processed-test"),
         [.called "pr", .warnedAsync "pr" "process", .called "b"]) ∧
    (execAll sPQ "process" []).2
      = ([.str "processed-test"],
         [.called "pr", .warnedAsync "pr" "process", .called "b"]) ∧
    (execAsync sPQ "process" []).2 = (some (.str "async-value"), [.called "pr"]) :=
  sync_promise_misuse_warned sPQ "process" [] pluginPromise pluginProcess _ _ 3
    (.str "async-value") (.str "processed-test") rfl rfl rfl rfl rfl rfl rfl

/-! ### C8 -/

/-- C8: the concurrent all-async dispatch resolves to the present settled
values in original candidate (priority) order under *every* completion
order of the candidate promises (so settlement order is irrelevant); the
delay-driven run and part_001's sequential variant compute that same
sequence; a rejecting candidate settles caught-to-null and is therefore
excluded rather than zero-filled; and with no candidates the result is the
empty sequence. -/
theorem execAllAsync_preserves_candidate_order (s : SystemState) (h : String)
    (args : List JSVal) :
    (∀ order, order.Perm (List.range (resolveContents s h).length) →
       (execAllAsyncWith order s h args).2 =
         (((resolveContents s h).map (fun p => (asyncPromise h args p).1.2)).filter jsPresent,
          (resolveContents s h).flatMap (fun p => (asyncPromise h args p).2))) ∧
    (execAllAsync s h args).2 =
      (((resolveContents s h).map (fun p => (asyncPromise h args p).1.2)).filter jsPresent,
       (resolveContents s h).flatMap (fun p => (asyncPromise h args p).2)) ∧
    (execAllAsyncSeq s h args).2 =
      (((resolveContents s h).map (fun p => (asyncPromise h args p).1.2)).filter jsPresent,
       (resolveContents s h).flatMap (fun p => (asyncPromise h args p).2)) ∧
    (∀ (p : Plugin) (b : List JSVal → Outcome) (e : JSVal) (d : Nat),
       getHookFunction p h = .fn b → b args = .retPromise d (.error e) →
       jsPresent (asyncPromise h args p).1.2 = false) ∧
    (resolveContents s h = [] → (execAllAsync s h args).2.1 = []) := by
  refine ⟨fun order hperm => execAllAsyncWith_eq order s h args hperm,
    execAllAsync_eq s h args, execAllAsyncSeq_eq s h args, ?_, ?_⟩
  · intro p b e d hg hb
    rw [asyncPromise_fn hg args, hb]
    rfl
  · intro hnil
    have hh : (execAllAsync s h args).2 = ([], []) := by
      rw [execAllAsync_eq s h args, hnil]
      rfl
    rw [hh]

/-- The delayed `false`-resolving plugin (longer delay). -/
def pluginDelayA : Plugin :=
  { name := "da", priority := none, hooks := none,
    attrs := [("go", .fn (fun _ => .retPromise 2 (.ok (.bool false))))] }

/-- The delayed `true`-resolving plugin (shorter delay). -/
def pluginDelayB : Plugin :=
  { name := "db", priority := none, hooks := none,
    attrs := [("go", .fn (fun _ => .retPromise 1 (.ok (.bool true))))] }

/-- The registry with the longer-delay plugin registered first. -/
def sDelay : SystemState :=
  { plugins := [pluginDelayA, pluginDelayB], hookCache := [], sortedPlugins := [],
    isDirty := true, nextId := 0 }

/-- C8 witness: with candidate A resolving `false` after a longer delay
than candidate B's `true`, the aggregate is `[false, true]` — candidate
order, not completion order — both under the delay-driven completion order
and under the explicitly reversed completion order. -/
theorem execAllAsync_preserves_candidate_order_witness :
    (execAllAsync sDelay "go" []).2.1 = [.bool false, .bool true] ∧
    (execAllAsyncWith [1, 0] sDelay "go" []).2.1 = [.bool false, .bool true] := by
  obtain ⟨hall, hconc, -, -, -⟩ := execAllAsync_preserves_candidate_order sDelay "go" []
  constructor
  · rw [hconc]
    rfl
  · rw [hall [1, 0] (by decide)]
    rfl

/-! ### C10 -/

/-- C10: a candidate that resolve includes but whose truthiness-resolved
hook value is not callable is skipped silently by every dispatch strategy:
it contributes an absent result, is never invoked, and no warning or error
diagnostic is emitted for it. -/
theorem noncallable_candidate_skipped_silently (s : SystemState) (h : String)
    (args : List JSVal) (p : Plugin)
    (hcand : resolveContents s h = [p])
    (hnc : (getHookFunction p h).isFunction = false) :
    (exec s h args).2 = (none, []) ∧
    (execAll s h args).2 = ([], []) ∧
    (execAsync s h args).2 = (none, []) ∧
    (execAllAsync s h args).2 = ([], []) ∧
    (execAllAsyncSeq s h args).2 = ([], []) := by
  have hstep := execStep_notfn hnc args
  have hasteps := execStepAsync_notfn hnc args
  have hprom := asyncPromise_notfn hnc args
  refine ⟨?_, ?_, ?_, ?_, ?_⟩
  · show execList h args (resolveContents s h) = _
    rw [hcand, execList_cons_none _ (by rw [hstep]), hstep]
    rfl
  · show execAllList h args (resolveContents s h) = _
    rw [hcand, execAllList_cons, hstep]
    rfl
  · show execAsyncList h args (resolveContents s h) = _
    rw [hcand, execAsyncList_cons_none _ (by rw [hasteps]), hasteps]
    rfl
  · rw [execAllAsync_eq s h args, hcand]
    simp [hprom, jsPresent]
  · rw [execAllAsyncSeq_eq s h args, hcand]
    simp [hprom, jsPresent]

/-- C10 witness: the plugin whose only association with `h` is the
non-callable nested `42` is a candidate, yet every strategy skips it with
no events at all. -/
theorem noncallable_candidate_skipped_silently_witness :
    (exec sQ "h" []).2 = (none, []) ∧
    (execAll sQ "h" []).2 = ([], []) ∧
    (execAsync sQ "h" []).2 = (none, []) ∧
    (execAllAsync sQ "h" []).2 = ([], []) ∧
    (execAllAsyncSeq sQ "h" []).2 = ([], []) :=
  noncallable_candidate_skipped_silently sQ "h" [] pluginQ rfl rfl

end Plugify
